import Mathlib

/-!
Shallow embedding of the core of the Python-Download-Manager repository
(`downloader.py`, `main.py`) and proofs about it.

The segmented download engine splits a resource of `total_size` bytes into
`threads` byte ranges, downloads each range to a part file, and merges the
parts.  The scheduler advances repeat windows and enforces start/stop times.
The HLS pipeline parses a playlist, selects the highest-bandwidth variant and
downloads its segments.  Machine integers of the source are modelled as
`Nat`/`Int` (Python integers are unbounded).
-/

namespace PDM

/-! ## Segmented range arithmetic (`DownloadTask._run`, downloader.py 256-274) -/

/-- `part_size = math.ceil(total_size / self.threads)` (downloader.py line 257),
as exact ceiling division on naturals. -/
def partSize (totalSize threads : ℕ) : ℕ :=
  (totalSize + threads - 1) / threads

/-- `start = i * part_size` (downloader.py line 263). -/
def segStart (totalSize threads i : ℕ) : ℕ :=
  i * partSize totalSize threads

/-- `end = min(start + part_size - 1, self.total_size - 1)` (downloader.py line 264). -/
def segEnd (totalSize threads i : ℕ) : ℕ :=
  min (segStart totalSize threads i + partSize totalSize threads - 1) (totalSize - 1)

theorem partSize_pos {t th : ℕ} (ht : 1 ≤ t) (hth : 1 ≤ th) :
    0 < partSize t th := by
  have h : th ≤ t + th - 1 := by omega
  have := Nat.div_le_div_right (c := th) h
  have hd : th / th = 1 := Nat.div_self hth
  unfold partSize
  omega

theorem le_mul_partSize {t th : ℕ} (ht : 1 ≤ t) (hth : 1 ≤ th) :
    t ≤ th * partSize t th := by
  unfold partSize
  have hmod := Nat.div_add_mod (t + th - 1) th
  have hlt : (t + th - 1) % th < th := Nat.mod_lt _ (by omega)
  set q := (t + th - 1) / th with hq
  set r := (t + th - 1) % th with hr
  set m := th * q with hm
  omega

/-- Membership of a byte offset `x < total_size` in worker `i`'s closed range
is equivalent to `i = x / part_size`: the ranges tile `[0, total_size - 1]`. -/
theorem mem_segRange_iff {t th : ℕ} (ht : 1 ≤ t) (hth : 1 ≤ th)
    {x : ℕ} (hx : x < t) (i : ℕ) :
    (segStart t th i ≤ x ∧ x ≤ segEnd t th i) ↔ i = x / partSize t th := by
  have hps : 0 < partSize t th := partSize_pos ht hth
  unfold segEnd segStart
  set ps := partSize t th with hpsdef
  have hle : x ≤ t - 1 := by omega
  constructor
  · rintro ⟨h1, h2⟩
    have h3 : x ≤ i * ps + ps - 1 := le_trans h2 (min_le_left _ _)
    have h4 : x < (i + 1) * ps := by
      have : (i + 1) * ps = i * ps + ps := by ring
      set m := i * ps with hm
      omega
    exact (Nat.div_eq_of_lt_le h1 h4).symm
  · rintro rfl
    refine ⟨Nat.div_mul_le_self x ps, le_min ?_ hle⟩
    have hmod := Nat.div_add_mod x ps
    have hlt : x % ps < ps := Nat.mod_lt _ hps
    set q := x / ps with hq
    set m := ps * q with hm
    have hqm : q * ps = m := by rw [hm]; ring
    omega

/-- Each byte offset below `total_size` lies in the range of exactly one of the
`threads` workers. -/
theorem segRange_partition {t th : ℕ} (ht : 1 ≤ t) (hth : 1 ≤ th)
    {x : ℕ} (hx : x < t) :
    ∃! i, i < th ∧ segStart t th i ≤ x ∧ x ≤ segEnd t th i := by
  have hps : 0 < partSize t th := partSize_pos ht hth
  refine ⟨x / partSize t th, ⟨?_, ?_⟩, ?_⟩
  · have hxlt : x < th * partSize t th := lt_of_lt_of_le hx (le_mul_partSize ht hth)
    exact Nat.div_lt_of_lt_mul (by rw [mul_comm] at hxlt; exact hxlt)
  · exact (mem_segRange_iff ht hth hx _).mpr rfl
  · rintro j ⟨-, hj⟩
    exact (mem_segRange_iff ht hth hx j).mp hj

/-- Worker `i`'s range is non-empty (`start ≤ end`) exactly when its start
offset lies inside the file; for `i * part_size ≥ total_size` the computed
range has `start > end`. -/
theorem segRange_nonempty_iff {t th : ℕ} (ht : 1 ≤ t) (hth : 1 ≤ th) (i : ℕ) :
    segStart t th i ≤ segEnd t th i ↔ segStart t th i < t := by
  have hps : 0 < partSize t th := partSize_pos ht hth
  unfold segEnd segStart
  set ps := partSize t th with hpsdef
  set m := i * ps with hm
  constructor
  · intro h
    have := le_trans h (min_le_right _ _)
    omega
  · intro h
    refine le_min ?_ (by omega)
    omega

theorem segStart_succ (t th i : ℕ) :
    segStart t th (i + 1) = segStart t th i + partSize t th := by
  unfold segStart; ring

theorem segEnd_add_one {t th : ℕ} (ht : 1 ≤ t) (hth : 1 ≤ th) (i : ℕ) :
    segEnd t th i + 1 = min (segStart t th i + partSize t th) t := by
  have hps : 0 < partSize t th := partSize_pos ht hth
  unfold segEnd
  omega

/-- The sum of the expected part lengths is exactly `total_size`, provided each
length is non-negative (as it is whenever a part file of that size exists). -/
theorem sum_expected_lengths {t th : ℕ} (ht : 1 ≤ t) (hth : 1 ≤ th)
    (L : ℕ → ℕ)
    (hL : ∀ i, i < th → (L i : ℤ) = (segEnd t th i : ℤ) - segStart t th i + 1) :
    ∑ i ∈ Finset.range th, (L i : ℤ) = t := by
  have hps : 0 < partSize t th := partSize_pos ht hth
  have hmul : t ≤ th * partSize t th := le_mul_partSize ht hth
  have hterm : ∀ i, i < th →
      (L i : ℤ) = min ((segStart t th (i + 1) : ℕ) : ℤ) t - (segStart t th i : ℤ) := by
    intro i hi
    have h2 : (L i : ℤ) = ((segEnd t th i + 1 : ℕ) : ℤ) - (segStart t th i : ℤ) := by
      rw [hL i hi]; push_cast; ring
    rw [h2, segEnd_add_one ht hth i, segStart_succ]
    push_cast
    ring_nf
  have hle : ∀ i, i < th → ((segStart t th i : ℕ) : ℤ) ≤ t := by
    intro i hi
    have h0 : (0 : ℤ) ≤ (L i : ℤ) := Int.natCast_nonneg _
    rw [hterm i hi] at h0
    have h1 := min_le_right ((segStart t th (i + 1) : ℕ) : ℤ) (t : ℤ)
    omega
  have hg : ∀ i, i < th →
      (L i : ℤ) = min ((segStart t th (i + 1) : ℕ) : ℤ) t - min ((segStart t th i : ℕ) : ℤ) t := by
    intro i hi
    rw [hterm i hi, min_eq_left (hle i hi)]
  calc ∑ i ∈ Finset.range th, (L i : ℤ)
      = ∑ i ∈ Finset.range th,
          (min ((segStart t th (i + 1) : ℕ) : ℤ) t - min ((segStart t th i : ℕ) : ℤ) t) :=
        Finset.sum_congr rfl (fun i hi => hg i (Finset.mem_range.mp hi))
    _ = min ((segStart t th th : ℕ) : ℤ) t - min ((segStart t th 0 : ℕ) : ℤ) t :=
        Finset.sum_range_sub (fun j => min ((segStart t th j : ℕ) : ℤ) t) th
    _ = t := by
        have h1 : t ≤ segStart t th th := by
          unfold segStart
          exact hmul
        have h2 : segStart t th 0 = 0 := by unfold segStart; ring
        rw [min_eq_right (by exact_mod_cast h1), h2]
        simp

theorem sum_map_length_eq_sum_getD (parts : List (List ℕ)) :
    (parts.map List.length).sum = ∑ i ∈ Finset.range parts.length, (parts.getD i []).length := by
  induction parts with
  | nil => simp
  | cons p ps ih =>
    simp [Finset.sum_range_succ', ih]
    omega

/-! ## Merge phase (`DownloadTask._merge_parts`, downloader.py 176-191, and
`_run` lines 303-307) -/

/-- State of the world after the merge phase succeeds: the destination file
content, the remaining part files, the task status and `speed_bps`. -/
structure MergeOutcome where
  dest : List ℕ
  partsOnDisk : List (List ℕ)
  status : String
  speedBps : ℚ
  deriving DecidableEq

/-- `_merge_parts(parts)` followed by the tail of `_run` on success
(downloader.py 176-191 and 303-307): the part files are streamed in ascending
index order into `dest_path` (64 KiB at a time, which concatenates their
contents), every part file is removed, `status = "completed"` and
`speed_bps = 0.0`. -/
def runMergePhase (parts : List (List ℕ)) : MergeOutcome :=
  { dest := parts.flatten
    partsOnDisk := []
    status := "completed"
    speedBps := 0 }

/-! ## Accounting model of a full segmented run (`_run`, downloader.py 208-310) -/

/-- `self.downloaded` as recomputed at the start of `_run` (downloader.py
219-226): the sum of the sizes of the files present in the parts directory
(`none` = absent part file). -/
def scanDownloaded (disk : List (Option ℕ)) : ℕ :=
  (disk.map (fun o => o.getD 0)).sum

/-- `end - start + 1`: the byte count worker `i` is expected to produce
(downloader.py line 270 / 153). -/
def expectedLen (t th i : ℕ) : ℕ :=
  segEnd t th i + 1 - segStart t th i

/-- Final value of `self.downloaded` after a successful, uninterrupted
segmented run against a server that answers each range request with exactly
the requested `end - start + 1` bytes.  Per `_run` (downloader.py 219-226),
`downloaded` starts as the sum of the on-disk part sizes; a worker whose part
file already has its expected size is skipped (lines 268-272, and the
re-check in `_download_range` lines 150-157 adds nothing new); every other
worker overwrites its part file from scratch, adding each received chunk's
length to `downloaded` (lines 160-171), i.e. `expectedLen` bytes in total. -/
def runFinalDownloaded (t th : ℕ) (disk : List (Option ℕ)) : ℕ :=
  scanDownloaded disk +
    ∑ i ∈ Finset.range th,
      (if disk.getD i none = some (expectedLen t th i) then 0 else expectedLen t th i)

/-! ## String helpers for the Python string operations used by the probe and
the HLS parser -/

/-- `needle.isPrefixOf` somewhere in the list: membership test for Python's
`needle in hay` on strings, over explicit character lists. -/
def containsList (needle : List Char) : List Char → Bool
  | [] => needle.isEmpty
  | c :: rest => needle.isPrefixOf (c :: rest) || containsList needle rest

/-- Python `needle in hay` (substring containment). -/
def strContains (hay needle : String) : Bool :=
  containsList needle.data hay.data

/-- Leading and trailing whitespace removed from a character list (Python
`str.strip()` with no argument). -/
def trimChars (l : List Char) : List Char :=
  ((l.dropWhile Char.isWhitespace).reverse.dropWhile Char.isWhitespace).reverse

/-- Python `s.lower()` (ASCII scope: the header values in play). -/
def strLower (s : String) : String :=
  String.mk (s.data.map Char.toLower)

/-- Python `s.startswith(pre)`. -/
def startsWithStr (s pre : String) : Bool :=
  pre.data.isPrefixOf s.data

/-- Python `s.strip()`: leading and trailing whitespace removed. -/
def pyStrip (s : String) : String :=
  String.mk (trimChars s.data)

/-- Splitting a character list on every occurrence of `sep` (Python
`s.split(sep)` for a one-character separator, which is all the source uses:
`/`, `:`, `,`, `=`). -/
def splitOnCharList (sep : Char) : List Char → List (List Char)
  | [] => [[]]
  | c :: rest =>
    let r := splitOnCharList sep rest
    if c = sep then [] :: r
    else
      match r with
      | [] => [[c]]
      | x :: xs => (c :: x) :: xs

/-- Python `s.split(sep)` for a one-character separator. -/
def strSplitOnChar (sep : Char) (s : String) : List String :=
  (splitOnCharList sep s.data).map String.mk

/-- Joining the pieces back with the separator. -/
def joinWithChar (sep : Char) : List (List Char) → List Char
  | [] => []
  | [x] => x
  | x :: y :: rest => x ++ sep :: joinWithChar sep (y :: rest)

/-- Python `s.isdigit()` for ASCII strings: non-empty and all characters are
decimal digits. -/
def pyIsdigit (s : String) : Bool :=
  !s.data.isEmpty && s.data.all (·.isDigit)


/-- Decimal value of a digit list, or `none` if empty or not all digits. -/
def digitsVal (l : List Char) : Option ℕ :=
  if !l.isEmpty && l.all (·.isDigit) then
    some (l.foldl (fun acc c => acc * 10 + (c.toNat - 48)) 0)
  else
    none

/-- Python `int(s)` on a string: strips whitespace, then an optional sign
followed by decimal digits; `none` models the `ValueError` raise.  (Underscore
separators and non-ASCII digits, which `int` also accepts, are outside the
scope of the header and playlist values treated here.) -/
def pyInt? (s : String) : Option ℤ :=
  match trimChars s.data with
  | [] => none
  | c :: rest =>
    if c = '-' then (digitsVal rest).map (fun n => -(n : ℤ))
    else if c = '+' then (digitsVal rest).map (fun n => (n : ℤ))
    else (digitsVal (c :: rest)).map (fun n => (n : ℤ))

/-! ## Range probe (`DownloadTask.supports_range_and_size`, downloader.py
114-138) -/

/-- The observable outcome of `_get_file_info` (downloader.py 91-112) as the
probe consumes it: `ok = false` means `raise_for_status()` raises (non-2xx);
absent headers default as in the source (`headers.get("Accept-Ranges", "")`,
`headers.get("Content-Length")`, `headers.get("Content-Range", "")`). -/
structure ProbeResponse where
  ok : Bool
  acceptRanges : String
  contentLength : Option String
  contentRange : String
  deriving DecidableEq

/-- `content_range.split("/")[-1]`: the text after the last `/`. -/
def lastAfterSlash (s : String) : String :=
  ((strSplitOnChar '/' s).getLast?).getD ""

/-- The `Content-Range` fallback of `supports_range_and_size` (downloader.py
128-133): if the header contains `/`, `int()` of the text after the last `/`
is the total (a `ValueError` is caught by the enclosing `except`, giving
`(False, None)`); otherwise the total is `None`. -/
def contentRangeFallback (r : ProbeResponse) (supports : Bool) : Bool × Option ℤ :=
  if strContains r.contentRange "/" then
    match pyInt? (lastAfterSlash r.contentRange) with
    | some n => (supports, some n)
    | none => (false, none)
  else
    (supports, none)

/-- `DownloadTask.supports_range_and_size` (downloader.py 114-138) over the
observable response.  `none` models any exception inside `_get_file_info`
(transport failure); every exception is caught and `(False, None)` returned. -/
def supportsRangeAndSize (resp : Option ProbeResponse) : Bool × Option ℤ :=
  match resp with
  | none => (false, none)
  | some r =>
    if r.ok = false then (false, none)
    else
      let supports := strContains (strLower r.acceptRanges) "bytes"
      match r.contentLength with
      | some length =>
        if pyIsdigit length then
          match pyInt? length with
          | some n => (supports, some n)
          | none => (false, none)
        else contentRangeFallback r supports
      | none => contentRangeFallback r supports

/-! ## Scheduling (`DownloadTask.update_schedule`, downloader.py 410-413;
`ScheduleDialog.accept`, main.py 118-127; `IDMWindow._advance_schedule` and
`_enforce_schedule`, main.py 575-662).  Wall-clock instants are modelled as
integer epoch seconds (UTC). -/

/-- The schedule fields of a task: `scheduled_start`, `scheduled_end`
(optional instants) and `repeat_interval` (seconds). -/
structure Sched where
  scheduledStart : Option ℤ
  scheduledEnd : Option ℤ
  repeatInterval : ℤ
  deriving DecidableEq

/-- `DownloadTask.update_schedule(start, end, repeat_interval)`
(downloader.py 410-413): unconditionally overwrites the three fields (the
datetime-to-ISO coercion is the identity on our instant model). -/
def updateSchedule (s e : Option ℤ) (rep : ℤ) : Sched :=
  { scheduledStart := s, scheduledEnd := e, repeatInterval := rep }

/-- A schedule-update request submitted through `ScheduleDialog.accept`
(main.py 118-127) followed, on acceptance, by `task.update_schedule`
(main.py 799-802): the dialog refuses to accept when both instants are given
with `end <= start`, or when `repeat > 0` without a start, leaving the task's
schedule untouched; otherwise the three fields are overwritten. -/
def scheduleDialogSubmit (task : Sched) (s e : Option ℤ) (rep : ℤ) : Sched :=
  if (match e, s with
      | some e₀, some s₀ => decide (e₀ ≤ s₀)
      | _, _ => false) then task
  else if 0 < rep ∧ s = none then task
  else updateSchedule s e rep

/-- Number of iterations of a `while x <= now: x += rep` loop (the roll-forward
loops of `_advance_schedule`, main.py 580-587). -/
def rollCount (rep now : ℤ) (hrep : 0 < rep) (x : ℤ) : ℕ :=
  if x ≤ now then rollCount rep now hrep (x + rep) + 1 else 0
termination_by (now + 1 - x).toNat
decreasing_by
  simp_wf
  omega

/-- `IDMWindow._advance_schedule` (main.py 575-593): while `repeat > 0` and the
current window has fully elapsed, roll the present boundaries forward by
`repeat` seconds; returns the new boundaries and whether anything moved
(in the source the moved values are also written back with
`task.update_schedule`, which `enforceSchedule` accounts for below). -/
def advanceSchedule (s e : Option ℤ) (rep now : ℤ) : Option ℤ × Option ℤ × Bool :=
  if h : rep ≤ 0 then (s, e, false)
  else
    have hrep : 0 < rep := by omega
    match s, e with
    | some s₀, some e₀ =>
      let k := rollCount rep now hrep e₀
      (some (s₀ + k * rep), some (e₀ + k * rep), k ≠ 0)
    | some s₀, none =>
      let k := rollCount rep now hrep (s₀ + rep)
      (some (s₀ + k * rep), none, k ≠ 0)
    | none, some e₀ =>
      let k := rollCount rep now hrep e₀
      (none, some (e₀ + k * rep), k ≠ 0)
    | none, none => (none, none, false)

/-- Status plus schedule fields of a task, as read and written by one
scheduler tick. -/
structure TaskSched where
  status : String
  error : Option String
  sched : Sched
  deriving DecidableEq

/-- `IDMWindow._enforce_schedule` (main.py 595-662) as a function of the task
state and the current time.  `task.pause()` on a downloading task sets status
`paused` (downloader.py 323-330); `task.start()` spawns the worker thread and
does not itself write `status`, so its synchronous effect here is only the
`task.error = None` reset done by the tick. -/
def enforceSchedule (t : TaskSched) (now : ℤ) : TaskSched :=
  let rep := t.sched.repeatInterval
  let adv := if 0 < rep then
      advanceSchedule t.sched.scheduledStart t.sched.scheduledEnd rep now
    else (t.sched.scheduledStart, t.sched.scheduledEnd, false)
  let s1 := adv.1
  let e1 := adv.2.1
  let t1 : TaskSched := { t with sched := { t.sched with scheduledStart := s1, scheduledEnd := e1 } }
  match s1, e1 with
  | none, none =>
    if t1.status = "scheduled" then { t1 with status := "queued" } else t1
  | some s₀, none =>
    if now < s₀ then { t1 with status := "scheduled" }
    else
      let t2 := if t1.status = "queued" ∨ t1.status = "paused" ∨ t1.status = "scheduled"
          ∨ t1.status = "error" then { t1 with error := none } else t1
      if 0 < rep then
        { t2 with sched := updateSchedule (some (s₀ + rep)) none rep }
      else t2
  | none, some e₀ =>
    if e₀ ≤ now then
      let t2 := if t1.status = "downloading" then { t1 with status := "paused" } else t1
      if 0 < rep then
        let t3 := { t2 with sched := updateSchedule none (some (e₀ + rep)) rep }
        if t3.status ≠ "scheduled" then { t3 with status := "scheduled" } else t3
      else
        let t3 := { t2 with sched := updateSchedule none none 0 }
        if t3.status ≠ "paused" ∧ t3.status ≠ "queued" ∧ t3.status ≠ "completed" then
          { t3 with status := "paused" }
        else t3
    else t1
  | some s₀, some e₀ =>
    if now < s₀ then { t1 with status := "scheduled" }
    else if now < e₀ then
      if t1.status = "queued" ∨ t1.status = "paused" ∨ t1.status = "scheduled"
          ∨ t1.status = "error" then { t1 with error := none } else t1
    else
      let t2 := if t1.status = "downloading" then { t1 with status := "paused" } else t1
      if 0 < rep then
        let t3 := { t2 with sched := updateSchedule (some (s₀ + rep)) (some (e₀ + rep)) rep }
        if t3.status ≠ "scheduled" then { t3 with status := "scheduled" } else t3
      else
        let t3 := { t2 with sched := updateSchedule none none 0 }
        if t3.status ≠ "paused" ∧ t3.status ≠ "queued" ∧ t3.status ≠ "completed" then
          { t3 with status := "paused" }
        else t3

/-! ## Pause (`DownloadTask.pause`, downloader.py 323-330) -/

/-- The sequence of values the `status` field takes across a `pause()` call
(downloader.py 323-330).  `workerFinal` is the value the worker thread may
have written while `pause` waits in its up-to-1-second `join` (for example
`"completed"` or `"error"`); the final statement of `pause` then overwrites it
with `"paused"`.  When the guard fails, `pause` does nothing. -/
def pauseStatusTrace (entry workerFinal : String) : List String :=
  if entry = "downloading" ∨ entry = "starting" then
    [entry, workerFinal, "paused"]
  else
    [entry]

/-! ## Segment worker (`DownloadTask._download_range`, downloader.py 143-174) -/

/-- Result of one `_download_range` call: the new `downloaded` counter, whether
a network request was issued, and the resulting part-file size. -/
structure RangeWorkerResult where
  downloaded : ℕ
  usedNetwork : Bool
  partFileSize : ℕ
  deriving DecidableEq

/-- `_download_range(start, end, part_path)` (downloader.py 143-174) for a run
that is not cancelled and whose request, if any, succeeds with exactly the
requested bytes: if the part file exists with size `end - start + 1`, its size
is added to `downloaded` and the call returns without touching the network
(lines 150-157); otherwise the ranged GET streams `served` bytes, the part
file is overwritten with them, and each chunk's length is added to
`downloaded` (lines 159-171). -/
def downloadRange (start endB : ℤ) (existing : Option ℕ) (downloaded : ℕ)
    (served : ℕ) : RangeWorkerResult :=
  match existing with
  | some sz =>
    if (sz : ℤ) = endB - start + 1 then
      { downloaded := downloaded + sz, usedNetwork := false, partFileSize := sz }
    else
      { downloaded := downloaded + served, usedNetwork := true, partFileSize := served }
  | none =>
    { downloaded := downloaded + served, usedNetwork := true, partFileSize := served }

/-! ## HLS playlist parsing and variant selection
(`DownloadTask._parse_hls_playlist`, `_parse_attribute_list`,
`_download_hls_media`, downloader.py 459-533) -/

/-- One `#EXT-X-STREAM-INF` variant collected by the parser (downloader.py
481-485). -/
structure HlsVariant where
  uri : String
  bandwidth : ℤ
  resolution : Option String
  deriving DecidableEq

/-- Stable insertion of a variant into a bandwidth-descending list: the new,
textually earlier element goes before the first element whose bandwidth is
not greater. -/
def insertByBandwidthDesc (v : HlsVariant) : List HlsVariant → List HlsVariant
  | [] => [v]
  | w :: ws =>
    if v.bandwidth < w.bandwidth then w :: insertByBandwidthDesc v ws
    else v :: w :: ws

/-- `variants.sort(key=lambda v: v.get("bandwidth", 0), reverse=True)`
(downloader.py 501).  Python's `sort` is stable also under `reverse=True`, so
its result is the unique bandwidth-descending order that keeps equal-bandwidth
variants in playlist order — computed here by a stable insertion sort. -/
def sortByBandwidthDesc : List HlsVariant → List HlsVariant
  | [] => []
  | v :: vs => insertByBandwidthDesc v (sortByBandwidthDesc vs)

/-- `parsed["variants"][0]` (downloader.py 530): the head of the sorted
variant list is the selected variant. -/
def selectVariant (vs : List HlsVariant) : Option HlsVariant :=
  (sortByBandwidthDesc vs).head?

/-- The first element of `v :: vs` attaining the maximal bandwidth (a later
element replaces the current champion only when strictly larger). -/
def pickFirstMax (v : HlsVariant) : List HlsVariant → HlsVariant
  | [] => v
  | w :: ws =>
    if v.bandwidth < (pickFirstMax w ws).bandwidth then pickFirstMax w ws
    else v

/-- Python `s.strip('"')`: all leading and trailing double-quote characters
removed. -/
def stripQuotes (s : String) : String :=
  String.mk (((s.data.dropWhile (· = '"')).reverse.dropWhile (· = '"')).reverse)

/-- `s.split(sep, 1)[1]`: everything after the first occurrence of the
one-character separator `sep` (callers guard on `sep in s`). -/
def afterFirstChar (sep : Char) (s : String) : String :=
  String.mk (joinWithChar sep (splitOnCharList sep s.data).tail)

/-- `DownloadTask._parse_attribute_list` (downloader.py 508-520): the text
after the first `:` is split on `,`; each `key=value` chunk is stripped and
de-quoted and written into a dict.  The dict is modelled as an association
list with the newest binding in front, so `List.lookup` sees the last write,
as `dict.get` does. -/
def parseAttributeList (line : String) : List (String × String) :=
  if strContains line ":" = false then []
  else
    (strSplitOnChar ',' (afterFirstChar ':' line)).foldl
      (fun attrs chunk =>
        if strContains chunk "=" = false then attrs
        else
          let key := (strSplitOnChar '=' chunk).headD ""
          let value := afterFirstChar '=' chunk
          (pyStrip key, stripQuotes (pyStrip value)) :: attrs)
      []

/-- `int(attrs.get("BANDWIDTH", 0))` (downloader.py 471): `0` when the key is
absent, else `int()` of the value (`none` models the `ValueError` raise). -/
def bandwidthOf (attrs : List (String × String)) : Option ℤ :=
  match List.lookup "BANDWIDTH" attrs with
  | none => some 0
  | some v => pyInt? v

/-- The inner `while` of the `#EXT-X-STREAM-INF` branch (downloader.py
474-479): the index of the first non-`#` line at or after `j`, or
`lines.length` if there is none. -/
def findUriIdx (lines : List String) (j : ℕ) : ℕ :=
  j + ((lines.drop j).takeWhile (fun l => startsWithStr l "#")).length

/-- Result of `_parse_hls_playlist`: a master playlist with its (sorted)
variants, or a media playlist with its segment URLs. -/
inductive HlsParsed where
  | master (variants : List HlsVariant)
  | media (segments : List String)
  deriving DecidableEq

/-- The main `while i < len(lines)` loop of `_parse_hls_playlist`
(downloader.py 464-497), collecting variants and segments.  `resolve` is
`urljoin(manifest_url, ·)`.  The only exception the loop itself can raise is
the `ValueError` of `int()` on a malformed `BANDWIDTH`. -/
def parseHlsLoop (resolve : String → String) (lines : List String) (i : ℕ)
    (variants : List HlsVariant) (segments : List String) :
    Except String (List HlsVariant × List String) :=
  if h : i < lines.length then
    let line := lines.get ⟨i, h⟩
    if startsWithStr line "#EXT-X-STREAM-INF" then
      let attrs := parseAttributeList line
      match bandwidthOf attrs with
      | none => .error "invalid literal for int() with base 10"
      | some bw =>
        let j := findUriIdx lines (i + 1)
        if hj : j < lines.length then
          parseHlsLoop resolve lines (j + 1)
            (variants ++ [{ uri := resolve (lines.get ⟨j, hj⟩), bandwidth := bw,
                            resolution := List.lookup "RESOLUTION" attrs }])
            segments
        else
          parseHlsLoop resolve lines (j + 1) variants segments
    else if startsWithStr line "#EXTINF" then
      if h2 : i + 1 < lines.length then
        if startsWithStr (lines.get ⟨i + 1, h2⟩) "#" then
          parseHlsLoop resolve lines (i + 1) variants segments
        else
          parseHlsLoop resolve lines (i + 2) variants
            (segments ++ [resolve (lines.get ⟨i + 1, h2⟩)])
      else
        parseHlsLoop resolve lines (i + 1) variants segments
    else if !startsWithStr line "#" then
      parseHlsLoop resolve lines (i + 1) variants (segments ++ [resolve line])
    else
      parseHlsLoop resolve lines (i + 1) variants segments
  else
    .ok (variants, segments)
termination_by lines.length - i
decreasing_by
  all_goals try simp only [findUriIdx]
  all_goals omega

/-- `DownloadTask._parse_hls_playlist(text, manifest_url)` (downloader.py
459-506).  `rawLines` is `text.splitlines()`; the parser strips each line,
drops blank ones, rejects unless the first remaining line starts with
`#EXTM3U`, runs the collection loop, and classifies the playlist (sorting the
variants of a master by descending bandwidth). -/
def parseHlsPlaylist (resolve : String → String) (rawLines : List String) :
    Except String HlsParsed :=
  let lines := (rawLines.map pyStrip).filter (fun l => l ≠ "")
  match lines with
  | [] => .error "Invalid HLS playlist"
  | l0 :: rest =>
    if !startsWithStr l0 "#EXTM3U" then .error "Invalid HLS playlist"
    else
      match parseHlsLoop resolve (l0 :: rest) 0 [] [] with
      | .error e => .error e
      | .ok (variants, segments) =>
        if variants ≠ [] then .ok (.master (sortByBandwidthDesc variants))
        else if segments = [] then .error "Playlist has no segments"
        else .ok (.media segments)

/-! ## Claim theorems -/

/-- C2 (amended): for `total_size ≥ 1` and `threads ≥ 1` the computed closed
ranges are pairwise disjoint, lie inside `[0, total_size - 1]`, and cover
every byte offset exactly once; worker `i`'s range is non-empty (`start ≤
end`) exactly when `i * part_size < total_size` — workers whose start offset
falls at or beyond `total_size` receive an empty (inverted) range. -/
theorem segmented_ranges_partition (t th : ℕ) (ht : 1 ≤ t) (hth : 1 ≤ th) :
    (∀ x, x < t → ∃! i, i < th ∧ segStart t th i ≤ x ∧ x ≤ segEnd t th i) ∧
    (∀ i, i < th → (segStart t th i ≤ segEnd t th i ↔ segStart t th i < t)) ∧
    (∀ i, segEnd t th i ≤ t - 1) := by
  refine ⟨fun x hx => segRange_partition ht hth hx,
    fun i _ => segRange_nonempty_iff ht hth i,
    fun i => ?_⟩
  unfold segEnd
  exact min_le_right _ _

/-- C2 witness: the partition conclusion instantiated at `total_size = 5`,
`threads = 4`. -/
theorem segmented_ranges_partition_witness :
    1 ≤ 5 ∧ 1 ≤ 4 ∧
    ((∀ x, x < 5 → ∃! i, i < 4 ∧ segStart 5 4 i ≤ x ∧ x ≤ segEnd 5 4 i) ∧
     (∀ i, i < 4 → (segStart 5 4 i ≤ segEnd 5 4 i ↔ segStart 5 4 i < 5)) ∧
     (∀ i, segEnd 5 4 i ≤ 5 - 1)) :=
  ⟨by decide, by decide, segmented_ranges_partition 5 4 (by decide) (by decide)⟩

/-- C2 counterexample: with `total_size = 5` and `threads = 4`,
`part_size = ceil(5/4) = 2` and worker `3` gets `start = 6 > 4 = end`, so the
claim's "each range is non-empty (start ≤ end)" fails. -/
theorem segmented_ranges_counterexample :
    partSize 5 4 = 2 ∧ segStart 5 4 3 = 6 ∧ segEnd 5 4 3 = 4 ∧
    ¬ segStart 5 4 3 ≤ segEnd 5 4 3 := by
  decide

/-- C3: when every part file holds exactly its `end - start + 1` bytes, the
merge phase produces the concatenation of the parts in ascending index order,
the final file holds exactly `total_size` bytes, no part file remains,
`status = "completed"` and `speed_bps = 0`. -/
theorem merge_phase_correct (t th : ℕ) (ht : 1 ≤ t) (hth : 1 ≤ th)
    (parts : List (List ℕ)) (hlen : parts.length = th)
    (hsizes : ∀ i, i < th → ((parts.getD i []).length : ℤ)
        = (segEnd t th i : ℤ) - segStart t th i + 1) :
    (runMergePhase parts).dest = parts.flatten ∧
    (runMergePhase parts).dest.length = t ∧
    (runMergePhase parts).partsOnDisk = [] ∧
    (runMergePhase parts).status = "completed" ∧
    (runMergePhase parts).speedBps = 0 := by
  refine ⟨rfl, ?_, rfl, rfl, rfl⟩
  have h1 : ((parts.flatten.length : ℕ) : ℤ) = (t : ℤ) := by
    rw [List.length_flatten, sum_map_length_eq_sum_getD, hlen]
    push_cast
    exact sum_expected_lengths ht hth _ hsizes
  exact_mod_cast h1

/-- C3 witness: `total_size = 4`, `threads = 2`, two part files of two bytes
each. -/
theorem merge_phase_correct_witness :
    (1 ≤ 4 ∧ 1 ≤ 2 ∧ ([[9, 9], [7, 7]] : List (List ℕ)).length = 2 ∧
      (∀ i, i < 2 → ((([[9, 9], [7, 7]] : List (List ℕ)).getD i []).length : ℤ)
          = (segEnd 4 2 i : ℤ) - segStart 4 2 i + 1)) ∧
    ((runMergePhase [[9, 9], [7, 7]]).dest = ([[9, 9], [7, 7]] : List (List ℕ)).flatten ∧
     (runMergePhase [[9, 9], [7, 7]]).dest.length = 4 ∧
     (runMergePhase [[9, 9], [7, 7]]).partsOnDisk = [] ∧
     (runMergePhase [[9, 9], [7, 7]]).status = "completed" ∧
     (runMergePhase [[9, 9], [7, 7]]).speedBps = 0) :=
  ⟨⟨by decide, by decide, by decide, by decide⟩,
   merge_phase_correct 4 2 (by decide) (by decide) _ (by decide) (by decide)⟩

/-- C1 refuted on the code: a resumed run with `total_size = 4`, `threads = 2`
and a partial 1-byte `part_0.tmp` on disk ends with `downloaded = 5 >
total_size`: the partial byte is summed into `downloaded` by the startup scan
(downloader.py 219-226) and the overwriting worker then adds all 2 bytes of
the range again (lines 158-171), so the invariant `downloaded ≤ total_size`
of the claim fails. -/
theorem downloaded_exceeds_total_size :
    0 < 4 ∧ runFinalDownloaded 4 2 [some 1, none] = 5 ∧
    ¬ runFinalDownloaded 4 2 [some 1, none] ≤ 4 := by
  decide

/-- C9: a segment worker whose part file already has exactly
`end - start + 1` bytes adds that size to `downloaded` and returns success
without any network request, leaving the part file as it is. -/
theorem range_worker_skip (start endB : ℤ) (sz downloaded served : ℕ)
    (h : (sz : ℤ) = endB - start + 1) :
    downloadRange start endB (some sz) downloaded served
      = { downloaded := downloaded + sz, usedNetwork := false, partFileSize := sz } := by
  simp [downloadRange, h]

/-- C9 witness: range `[0, 1]`, an existing 2-byte part file. -/
theorem range_worker_skip_witness :
    ((2 : ℕ) : ℤ) = 1 - 0 + 1 ∧
    downloadRange 0 1 (some 2) 10 7
      = { downloaded := 12, usedNetwork := false, partFileSize := 2 } :=
  ⟨by decide, range_worker_skip 0 1 2 10 7 (by decide)⟩

/-- C10: `pause()` on a task whose status is `"downloading"` or `"starting"`
always ends with status `"paused"`, even when the worker thread wrote
`"completed"` or `"error"` during the ≤ 1 s join; on any other entry status
`pause()` leaves the status untouched. -/
theorem pause_overwrites_status (entry workerFinal : String) :
    ((entry = "downloading" ∨ entry = "starting") →
      pauseStatusTrace entry workerFinal = [entry, workerFinal, "paused"] ∧
      (pauseStatusTrace entry workerFinal).getLast? = some "paused") ∧
    (¬ (entry = "downloading" ∨ entry = "starting") →
      pauseStatusTrace entry workerFinal = [entry]) := by
  constructor <;> intro h <;> simp [pauseStatusTrace, h]

/-- C10 witness: the worker finished with `"completed"` during the join and is
still overwritten with `"paused"`. -/
theorem pause_overwrites_status_witness :
    ("downloading" = "downloading" ∨ "downloading" = "starting") ∧
    pauseStatusTrace "downloading" "completed" = ["downloading", "completed", "paused"] ∧
    (pauseStatusTrace "downloading" "completed").getLast? = some "paused" :=
  ⟨Or.inl rfl,
   ((pause_overwrites_status "downloading" "completed").1 (Or.inl rfl)).1,
   ((pause_overwrites_status "downloading" "completed").1 (Or.inl rfl)).2⟩

/-- C5: a schedule-update request with both instants given and `end ≤ start`
is rejected, as is one with `repeat > 0` and no start; a rejected request
leaves `scheduled_start`, `scheduled_end` and `repeat_interval` unchanged. -/
theorem schedule_update_rejection :
    (∀ (task : Sched) (s₀ e₀ rep : ℤ), e₀ ≤ s₀ →
      scheduleDialogSubmit task (some s₀) (some e₀) rep = task) ∧
    (∀ (task : Sched) (e : Option ℤ) (rep : ℤ), 0 < rep →
      scheduleDialogSubmit task none e rep = task) := by
  constructor
  · intro task s₀ e₀ rep h
    simp [scheduleDialogSubmit, h]
  · intro task e rep h
    cases e <;> simp [scheduleDialogSubmit, h]

/-- C5 witness: both rejection branches at concrete inputs. -/
theorem schedule_update_rejection_witness :
    ((10 : ℤ) ≤ 20 ∧
     scheduleDialogSubmit ⟨some 1, some 2, 0⟩ (some 20) (some 10) 0 = ⟨some 1, some 2, 0⟩) ∧
    ((0 : ℤ) < 5 ∧
     scheduleDialogSubmit ⟨some 1, some 2, 0⟩ none (some 9) 5 = ⟨some 1, some 2, 0⟩) :=
  ⟨⟨by decide, schedule_update_rejection.1 _ 20 10 0 (by decide)⟩,
   ⟨by decide, schedule_update_rejection.2 _ (some 9) 5 (by decide)⟩⟩

/-- C4 (amended): the probe never raises and returns `(False, None)` on
transport failure or a non-2xx status.  On success, `supports_range` is the
case-insensitive `"bytes"` test on `Accept-Ranges` and the total is the
parsed numeric `Content-Length`, else the integer after the last `/` of
`Content-Range` — except that when that suffix does not parse as an integer,
the `int()` `ValueError` is caught by the enclosing handler and the probe
returns `(False, None)` instead of `(supports_range, None)`. -/
theorem probe_result_spec :
    (supportsRangeAndSize none = (false, none)) ∧
    (∀ r : ProbeResponse, r.ok = false → supportsRangeAndSize (some r) = (false, none)) ∧
    (∀ r : ProbeResponse, r.ok = true →
      (∀ ls n, r.contentLength = some ls → pyIsdigit ls = true → pyInt? ls = some n →
        supportsRangeAndSize (some r)
          = (strContains (strLower r.acceptRanges) "bytes", some n)) ∧
      ((r.contentLength = none ∨ ∃ ls, r.contentLength = some ls ∧ pyIsdigit ls = false) →
        ((strContains r.contentRange "/" = false →
           supportsRangeAndSize (some r)
             = (strContains (strLower r.acceptRanges) "bytes", none)) ∧
         (∀ n, strContains r.contentRange "/" = true →
           pyInt? (lastAfterSlash r.contentRange) = some n →
           supportsRangeAndSize (some r)
             = (strContains (strLower r.acceptRanges) "bytes", some n)) ∧
         (strContains r.contentRange "/" = true →
           pyInt? (lastAfterSlash r.contentRange) = none →
           supportsRangeAndSize (some r) = (false, none))))) := by
  refine ⟨rfl, ?_, ?_⟩
  · intro r h
    simp [supportsRangeAndSize, h]
  · intro r hok
    constructor
    · intro ls n hcl hdig hint
      simp [supportsRangeAndSize, hok, hcl, hdig, hint]
    · intro hcl
      have hfall : supportsRangeAndSize (some r)
          = contentRangeFallback r (strContains (strLower r.acceptRanges) "bytes") := by
        rcases hcl with h | ⟨ls, hls, hdig⟩
        · simp [supportsRangeAndSize, hok, h]
        · simp [supportsRangeAndSize, hok, hls, hdig]
      refine ⟨?_, ?_, ?_⟩
      · intro hslash
        rw [hfall]
        simp [contentRangeFallback, hslash]
      · intro n hslash hint
        rw [hfall]
        simp [contentRangeFallback, hslash, hint]
      · intro hslash hint
        rw [hfall]
        simp [contentRangeFallback, hslash, hint]

/-- C4 witness: a 2xx response with `Accept-Ranges: Bytes` and
`Content-Length: 500` probes to `(true, some 500)`. -/
theorem probe_result_spec_witness :
    ((⟨true, "Bytes", some "500", ""⟩ : ProbeResponse).ok = true ∧
     pyIsdigit "500" = true ∧ pyInt? "500" = some 500) ∧
    supportsRangeAndSize (some ⟨true, "Bytes", some "500", ""⟩) = (true, some 500) :=
  ⟨⟨rfl, by decide, by decide⟩, by
    have h := ((probe_result_spec.2.2
        ⟨true, "Bytes", some "500", ""⟩ rfl).1 "500" 500 rfl (by decide) (by decide))
    exact h.trans (by decide)⟩

/-- C4 counterexample: a successful response with `Accept-Ranges: bytes`, no
`Content-Length`, and `Content-Range: bytes 0-0/*` makes the probe return
`(False, None)` although the claim demands `supports_range = true` whenever
`"bytes"` occurs in `Accept-Ranges` on a success. -/
theorem probe_counterexample :
    supportsRangeAndSize (some ⟨true, "bytes", none, "bytes 0-0/*"⟩) = (false, none) ∧
    strContains (strLower "bytes") "bytes" = true := by
  decide

/-- After rolling forward, the boundary lies strictly beyond `now`. -/
theorem rollCount_roll_past (rep now : ℤ) (hrep : 0 < rep) (x : ℤ) :
    now < x + (rollCount rep now hrep x : ℤ) * rep := by
  suffices h : ∀ n : ℕ, ∀ x : ℤ, (now + 1 - x).toNat ≤ n →
      now < x + (rollCount rep now hrep x : ℤ) * rep from
    h (now + 1 - x).toNat x le_rfl
  intro n
  induction n with
  | zero =>
    intro x hx
    unfold rollCount
    rw [if_neg (by omega)]
    simp
    omega
  | succ n ih =>
    intro x hx
    unfold rollCount
    split
    · rename_i hcond
      have h2 := ih (x + rep) (by omega)
      push_cast
      push_cast at h2
      nlinarith
    · simp
      omega

/-- C6: with `repeat > 0`, advancing the repeat window shifts the present
boundaries forward by one common whole number of `repeat`-second steps; on
return `now < end` whenever an end is present, and `now < start + repeat`
when only a start is present; and, concretely, a task downloading with
`start = T`, `end = T + 60`, `repeat = 3600` ticked at `T + 61` becomes
`scheduled` with `start = T + 3600`, `end = T + 3660`. -/
theorem advance_schedule_spec (s e : Option ℤ) (rep now T : ℤ) (hrep : 0 < rep) :
    (∃ k : ℕ,
      (advanceSchedule s e rep now).1 = s.map (fun x => x + (k : ℤ) * rep) ∧
      (advanceSchedule s e rep now).2.1 = e.map (fun x => x + (k : ℤ) * rep)) ∧
    (∀ e₀, e = some e₀ →
      ∃ e₁, (advanceSchedule s e rep now).2.1 = some e₁ ∧ now < e₁) ∧
    (∀ s₀, e = none → s = some s₀ →
      ∃ s₁, (advanceSchedule s e rep now).1 = some s₁ ∧ now < s₁ + rep) ∧
    enforceSchedule ⟨"downloading", none, ⟨some T, some (T + 60), 3600⟩⟩ (T + 61)
      = ⟨"scheduled", none, ⟨some (T + 3600), some (T + 3660), 3600⟩⟩ := by
  have hnot : ¬ rep ≤ 0 := not_le.mpr hrep
  refine ⟨?_, ?_, ?_, ?_⟩
  · cases s with
    | none =>
      cases e with
      | none => exact ⟨0, by simp [advanceSchedule, hnot]⟩
      | some e₀ => exact ⟨rollCount rep now hrep e₀, by simp [advanceSchedule, hnot]⟩
    | some s₀ =>
      cases e with
      | none => exact ⟨rollCount rep now hrep (s₀ + rep), by simp [advanceSchedule, hnot]⟩
      | some e₀ => exact ⟨rollCount rep now hrep e₀, by simp [advanceSchedule, hnot]⟩
  · rintro e₀ rfl
    cases s with
    | none =>
      exact ⟨e₀ + (rollCount rep now hrep e₀ : ℤ) * rep,
        by simp [advanceSchedule, hnot], rollCount_roll_past rep now hrep e₀⟩
    | some s₀ =>
      exact ⟨e₀ + (rollCount rep now hrep e₀ : ℤ) * rep,
        by simp [advanceSchedule, hnot], rollCount_roll_past rep now hrep e₀⟩
  · rintro s₀ rfl rfl
    refine ⟨s₀ + (rollCount rep now hrep (s₀ + rep) : ℤ) * rep,
      by simp [advanceSchedule, hnot], ?_⟩
    have h := rollCount_roll_past rep now hrep (s₀ + rep)
    linarith
  · have hk2 : ∀ h : (0 : ℤ) < 3600,
        rollCount 3600 (T + 61) h (T + 60 + 3600) = 0 := by
      intro h
      unfold rollCount
      rw [if_neg (by omega)]
    have hk : ∀ h : (0 : ℤ) < 3600,
        rollCount 3600 (T + 61) h (T + 60) = 1 := by
      intro h
      unfold rollCount
      rw [if_pos (by omega), hk2]
    have hadv : advanceSchedule (some T) (some (T + 60)) 3600 (T + 61)
        = (some (T + 3600), some (T + 3660), true) := by
      simp [advanceSchedule, hk]
      omega
    simp only [enforceSchedule, hadv]
    norm_num

/-- C6 witness: the theorem instantiated at `s = T = 0`, `e = 60`,
`rep = 3600`, `now = 61`. -/
theorem advance_schedule_spec_witness :
    (0 : ℤ) < 3600 ∧
    ((∃ k : ℕ,
      (advanceSchedule (some 0) (some 60) 3600 61).1
        = (some (0 : ℤ)).map (fun x => x + (k : ℤ) * 3600) ∧
      (advanceSchedule (some 0) (some 60) 3600 61).2.1
        = (some (60 : ℤ)).map (fun x => x + (k : ℤ) * 3600)) ∧
    (∀ e₀, (some (60 : ℤ)) = some e₀ →
      ∃ e₁, (advanceSchedule (some 0) (some 60) 3600 61).2.1 = some e₁ ∧ (61 : ℤ) < e₁) ∧
    (∀ s₀, (some (60 : ℤ)) = none → (some (0 : ℤ)) = some s₀ →
      ∃ s₁, (advanceSchedule (some 0) (some 60) 3600 61).1 = some s₁ ∧ (61 : ℤ) < s₁ + 3600) ∧
    enforceSchedule ⟨"downloading", none, ⟨some 0, some (0 + 60), 3600⟩⟩ (0 + 61)
      = ⟨"scheduled", none, ⟨some (0 + 3600), some (0 + 3660), 3600⟩⟩) :=
  ⟨by decide, advance_schedule_spec (some 0) (some 60) 3600 61 0 (by decide)⟩

/-- Head of a stable descending insertion: the incumbent head survives only
when strictly larger than the inserted, textually earlier element. -/
theorem insertByBandwidthDesc_head (v w : HlsVariant) (ws : List HlsVariant) :
    (insertByBandwidthDesc v (w :: ws)).head?
      = some (if v.bandwidth < w.bandwidth then w else v) := by
  simp only [insertByBandwidthDesc]
  split <;> simp

/-- The head of the sorted list is the first maximal-bandwidth element. -/
theorem sortByBandwidthDesc_head (v : HlsVariant) (vs : List HlsVariant) :
    (sortByBandwidthDesc (v :: vs)).head? = some (pickFirstMax v vs) := by
  induction vs generalizing v with
  | nil => simp [sortByBandwidthDesc, insertByBandwidthDesc, pickFirstMax]
  | cons w ws ih =>
    have h := ih w
    obtain ⟨m, rest, hm⟩ : ∃ m rest, sortByBandwidthDesc (w :: ws) = m :: rest := by
      cases hs : sortByBandwidthDesc (w :: ws) with
      | nil => rw [hs] at h; simp at h
      | cons a b => exact ⟨a, b, rfl⟩
    have hm' : m = pickFirstMax w ws := by
      rw [hm] at h
      simpa using h
    show (insertByBandwidthDesc v (sortByBandwidthDesc (w :: ws))).head? = _
    rw [hm, insertByBandwidthDesc_head, hm']
    simp only [pickFirstMax]

/-- `pickFirstMax v vs` is an element of `v :: vs`, has maximal bandwidth, and
every element before its first position has strictly smaller bandwidth. -/
theorem pickFirstMax_spec (v : HlsVariant) (vs : List HlsVariant) :
    ∃ i, ∃ h : i < (v :: vs).length,
      (v :: vs).get ⟨i, h⟩ = pickFirstMax v vs ∧
      (∀ w ∈ v :: vs, w.bandwidth ≤ (pickFirstMax v vs).bandwidth) ∧
      (∀ j (hj : j < (v :: vs).length), j < i →
        ((v :: vs).get ⟨j, hj⟩).bandwidth < (pickFirstMax v vs).bandwidth) := by
  induction vs generalizing v with
  | nil =>
    refine ⟨0, by simp, by simp [pickFirstMax], ?_, ?_⟩
    · intro w hw
      simp at hw
      simp [hw, pickFirstMax]
    · intro j hj hj0
      omega
  | cons w ws ih =>
    obtain ⟨i, hi, hget, hmax, hbefore⟩ := ih w
    by_cases hvm : v.bandwidth < (pickFirstMax w ws).bandwidth
    · have hpick : pickFirstMax v (w :: ws) = pickFirstMax w ws := by
        simp [pickFirstMax, hvm]
      refine ⟨i + 1, by simpa using hi, ?_, ?_, ?_⟩
      · rw [hpick]
        simpa using hget
      · intro u hu
        rw [hpick]
        rcases List.mem_cons.mp hu with rfl | hu2
        · exact le_of_lt hvm
        · exact hmax u hu2
      · intro j hj hji
        rw [hpick]
        cases j with
        | zero => simpa using hvm
        | succ j' =>
          have hj' : j' < (w :: ws).length := by simpa using hj
          have := hbefore j' hj' (by omega)
          simpa using this
    · have hpick : pickFirstMax v (w :: ws) = v := by
        simp [pickFirstMax, hvm]
      refine ⟨0, by simp, by simp [hpick], ?_, ?_⟩
      · intro u hu
        rw [hpick]
        rcases List.mem_cons.mp hu with rfl | hu2
        · exact le_refl _
        · exact le_trans (hmax u hu2) (not_lt.mp hvm)
      · intro j hj hj0
        omega

/-- C7: for every non-empty collected variant list, the pipeline selects a
variant that occurs in the list, whose bandwidth is greatest, and every
variant occurring earlier in the playlist has strictly smaller bandwidth
(so the first occurrence wins among equal maxima). -/
theorem variant_selection_spec (vs : List HlsVariant) (hvs : vs ≠ []) :
    ∃ sel, selectVariant vs = some sel ∧
      ∃ i, ∃ h : i < vs.length,
        vs.get ⟨i, h⟩ = sel ∧
        (∀ w ∈ vs, w.bandwidth ≤ sel.bandwidth) ∧
        (∀ j (hj : j < vs.length), j < i →
          (vs.get ⟨j, hj⟩).bandwidth < sel.bandwidth) := by
  match vs, hvs with
  | v :: vs', _ =>
    refine ⟨pickFirstMax v vs', ?_, pickFirstMax_spec v vs'⟩
    unfold selectVariant
    exact sortByBandwidthDesc_head v vs'

/-- C7 witness: two variants with bandwidths 500000 and 1200000; the second is
selected. -/
theorem variant_selection_spec_witness :
    (([⟨"low", 500000, none⟩, ⟨"high", 1200000, none⟩] : List HlsVariant) ≠ []) ∧
    (∃ sel, selectVariant [⟨"low", 500000, none⟩, ⟨"high", 1200000, none⟩] = some sel ∧
      ∃ i, ∃ h : i < ([⟨"low", 500000, none⟩, ⟨"high", 1200000, none⟩] : List HlsVariant).length,
        ([⟨"low", 500000, none⟩, ⟨"high", 1200000, none⟩] : List HlsVariant).get ⟨i, h⟩ = sel ∧
        (∀ w ∈ ([⟨"low", 500000, none⟩, ⟨"high", 1200000, none⟩] : List HlsVariant),
          w.bandwidth ≤ sel.bandwidth) ∧
        (∀ j (hj : j < ([⟨"low", 500000, none⟩, ⟨"high", 1200000, none⟩] : List HlsVariant).length),
          j < i →
          (([⟨"low", 500000, none⟩, ⟨"high", 1200000, none⟩] : List HlsVariant).get
            ⟨j, hj⟩).bandwidth < sel.bandwidth)) :=
  ⟨by decide, variant_selection_spec _ (by decide)⟩

theorem le_findUriIdx (lines : List String) (j : ℕ) : j ≤ findUriIdx lines j := by
  unfold findUriIdx
  omega

/-- The collection loop can fail only with the `int()` error on a malformed
`BANDWIDTH`, never with the `"Invalid HLS playlist"` rejection. -/
theorem parseHlsLoop_ne_invalid (resolve : String → String) (lines : List String)
    (i : ℕ) (variants : List HlsVariant) (segments : List String) :
    parseHlsLoop resolve lines i variants segments ≠ .error "Invalid HLS playlist" := by
  suffices h : ∀ n : ℕ, ∀ (i : ℕ) (variants : List HlsVariant) (segments : List String),
      lines.length - i ≤ n →
      parseHlsLoop resolve lines i variants segments ≠ .error "Invalid HLS playlist" from
    h (lines.length - i) i variants segments le_rfl
  intro n
  induction n with
  | zero =>
    intro i v sg hn
    unfold parseHlsLoop
    rw [dif_neg (by omega)]
    simp
  | succ n ih =>
    intro i v sg hn
    unfold parseHlsLoop
    by_cases h : i < lines.length
    · rw [dif_pos h]
      dsimp only
      split
      · split
        · intro hcontra
          injection hcontra with hstr
          exact absurd hstr (by decide)
        · split
          · exact ih _ _ _ (by have := le_findUriIdx lines (i + 1); omega)
          · exact ih _ _ _ (by have := le_findUriIdx lines (i + 1); omega)
      · split
        · split
          · split
            · exact ih _ _ _ (by omega)
            · exact ih _ _ _ (by omega)
          · exact ih _ _ _ (by omega)
        · split
          · exact ih _ _ _ (by omega)
          · exact ih _ _ _ (by omega)
    · rw [dif_neg h]
      simp

/-- C8: a fetched manifest whose first non-blank stripped line does not start
with `#EXTM3U` makes `_parse_hls_playlist` raise exactly `"Invalid HLS
playlist"` (so no segment is ever downloaded); when that line does start with
`#EXTM3U`, this rejection cannot occur. -/
theorem hls_reject_spec (resolve : String → String) (rawLines : List String) :
    (∀ l0 rest, (rawLines.map pyStrip).filter (fun l => l ≠ "") = l0 :: rest →
      startsWithStr l0 "#EXTM3U" = false →
      parseHlsPlaylist resolve rawLines = .error "Invalid HLS playlist") ∧
    (∀ l0 rest, (rawLines.map pyStrip).filter (fun l => l ≠ "") = l0 :: rest →
      startsWithStr l0 "#EXTM3U" = true →
      parseHlsPlaylist resolve rawLines ≠ .error "Invalid HLS playlist") := by
  constructor
  · intro l0 rest hstrip hstart
    unfold parseHlsPlaylist
    rw [hstrip]
    simp [hstart]
  · intro l0 rest hstrip hstart
    unfold parseHlsPlaylist
    rw [hstrip]
    simp only [hstart, Bool.not_true, Bool.false_eq_true, if_false]
    have hloop := parseHlsLoop_ne_invalid resolve (l0 :: rest) 0 [] []
    cases hres : parseHlsLoop resolve (l0 :: rest) 0 [] [] with
    | error e =>
      rw [hres] at hloop
      simpa using hloop
    | ok p =>
      obtain ⟨vr, sg⟩ := p
      dsimp only
      split
      · simp
      · split
        · intro hcontra
          injection hcontra with hstr
          exact absurd hstr (by decide)
        · simp

/-- C8 witness: a manifest without `#EXTM3U` is rejected; one with it is not. -/
theorem hls_reject_spec_witness :
    (((["hello"] : List String).map pyStrip).filter (fun l => l ≠ "") = ["hello"] ∧
     startsWithStr "hello" "#EXTM3U" = false ∧
     parseHlsPlaylist (fun u => u) ["hello"] = .error "Invalid HLS playlist") ∧
    (((["#EXTM3U", "seg1.ts"] : List String).map pyStrip).filter (fun l => l ≠ "")
        = ["#EXTM3U", "seg1.ts"] ∧
     startsWithStr "#EXTM3U" "#EXTM3U" = true ∧
     parseHlsPlaylist (fun u => u) ["#EXTM3U", "seg1.ts"] ≠ .error "Invalid HLS playlist") :=
  ⟨⟨by decide, by decide,
    (hls_reject_spec (fun u => u) ["hello"]).1 "hello" [] (by decide) (by decide)⟩,
   ⟨by decide, by decide,
    (hls_reject_spec (fun u => u) ["#EXTM3U", "seg1.ts"]).2 "#EXTM3U" ["seg1.ts"]
      (by decide) (by decide)⟩⟩

end PDM
